import Mathlib

/-!
Verification of the Deathroom multiplayer server core.

A shallow embedding of the authoritative party/combat server in
`src/server/server.js`.  JavaScript numbers holding health and damage are
modelled as `Int` (the source never clamps boss or enemy health, so values
may go negative); indices and counters are `Nat`.  The mutable per-party
state is threaded explicitly: every socket handler becomes a pure function
`state → state × events`, and the process-wide `parties` object becomes an
insertion-ordered association list.
-/

namespace Deathroom

/-- Spatial position attached to a boss (the literal `x: 0, y: 1, z: 0`). -/
structure Position where
  x : Int
  y : Int
  z : Int
  deriving DecidableEq, Repr

/-- An entry of the `roomTypes` table. -/
structure RoomType where
  name : String
  difficulty : Nat
  deriving DecidableEq, Repr

/-- An entry of the `bossTypes` table: the fields spread into a boss. -/
structure BossBase where
  name : String
  health : Int
  damage : Int
  deriving DecidableEq, Repr

/-- A boss as built by `generateRoom`: table entry plus id, type index and
position. -/
structure Boss where
  name : String
  health : Int
  damage : Int
  id : String
  type : Nat
  position : Position
  deriving DecidableEq, Repr

/-- A regular enemy; the server reads only its `id` and `health`. -/
structure Enemy where
  id : String
  health : Int
  deriving DecidableEq, Repr

/-- A loot item; the server reads `id`, `type` and `value`. -/
structure Loot where
  id : String
  type : String
  value : Int
  deriving DecidableEq, Repr

/-- A generated room (`generateRoom`'s return object). -/
structure Room where
  id : String
  type : String
  difficulty : Nat
  isBossRoom : Bool
  enemies : List Enemy
  boss : Option Boss
  loot : List Loot
  deriving DecidableEq, Repr

/-- The `roomTypes` table. -/
def roomTypes : List RoomType :=
  [⟨"Dungeon Cell", 1⟩, ⟨"Torture Chamber", 2⟩, ⟨"Crypt", 3⟩,
   ⟨"Summoning Room", 4⟩, ⟨"Throne Room", 5⟩]

/-- The `bossTypes` table. -/
def bossTypes : List BossBase :=
  [⟨"Reanimated Executioner", 200, 20⟩, ⟨"Blood Acolyte", 300, 25⟩,
   ⟨"Pit Fiend", 400, 30⟩, ⟨"Necrotic Hierophant", 500, 35⟩,
   ⟨"Deathlord", 750, 40⟩]

/-- The generator `generateRoom(difficulty)`: room archetype from `difficulty / 3`, boss
archetype from `difficulty / 5`, both capped at the last table entry; one
boss, no ambient enemies, no loot. -/
def generateRoom (difficulty : Nat) : Room :=
  let roomType := roomTypes.getD (min (difficulty / 3) (roomTypes.length - 1)) ⟨"", 0⟩
  let bossIndex := min (difficulty / 5) (bossTypes.length - 1)
  let base := bossTypes.getD bossIndex ⟨"", 0, 0⟩
  let boss : Boss :=
    { name := base.name, health := base.health, damage := base.damage,
      id := "boss-" ++ toString difficulty, type := bossIndex,
      position := ⟨0, 1, 0⟩ }
  { id := "room-" ++ toString difficulty, type := roomType.name,
    difficulty := difficulty, isBossRoom := true, enemies := [],
    boss := some boss, loot := [] }

/-- Placeholder room used for the (provably unreachable) out-of-bounds case
of `rooms[currentRoom]`. -/
def emptyRoom : Room :=
  { id := "", type := "", difficulty := 0, isBossRoom := false,
    enemies := [], boss := none, loot := [] }

/-- Per-player record created on host/join
(`{ health: 100, maxHealth: 100, level: 1, kills: 0 }`). -/
structure PlayerState where
  health : Int
  maxHealth : Int
  level : Nat
  kills : Nat
  deriving DecidableEq, Repr

/-- The fresh player record. -/
def initPlayerState : PlayerState :=
  { health := 100, maxHealth := 100, level := 1, kills := 0 }

/-- A party's `state` object: room index, append-only room list, and the
per-connection player records (`playerStates`, modelled as an
insertion-ordered association list). -/
structure GameState where
  currentRoom : Nat
  rooms : List Room
  playerStates : List (String × PlayerState)
  deriving DecidableEq, Repr

/-- A party record: host id, join-ordered member list, game state. -/
structure Party where
  host : String
  players : List String
  state : GameState
  deriving DecidableEq, Repr

/-- Events the server emits to sockets, with the payload fields the claims
refer to. -/
inductive Event where
  | joinError (reason : String)
  | joinSuccess (players : List String)
  | playerJoined (pid : String)
  | gameStarted
  | inputUpdate (pid : String)
  | playerAttacked (pid : String)
  | roomCompleted (defeatedBoss : Option Boss) (newRoom : Room)
  | bossHealthUpdate (boss : Boss)
  | enemyDefeated (enemyId : String) (killedBy : String)
  | enemyHealthUpdate (enemyId : String) (health : Int)
  | playerHealthUpdate (pid : String) (health : Int)
  | playerDied (pid : String)
  | gameOver (roomsCleared : Nat) (playerStats : List (String × PlayerState))
  | playerStatsUpdate (pid : String)
  | lootCollected (lootId : String) (pid : String)
  | playerLeft (pid : String)
  | newHost (pid : String)
  deriving DecidableEq, Repr

/-- Holds exactly for `roomCompleted` events. -/
def Event.isRoomCompleted : Event → Bool
  | .roomCompleted _ _ => true
  | _ => false

/-- Holds exactly for `gameOver` events. -/
def Event.isGameOver : Event → Bool
  | .gameOver _ _ => true
  | _ => false

/-- Association-list read, `playerStates[pid]`: the first binding of
`pid`, if any. -/
def lookupPS (l : List (String × PlayerState)) (pid : String) :
    Option PlayerState :=
  match l with
  | [] => none
  | (k, v) :: rest => if k = pid then some v else lookupPS rest pid

/-- Association-list write, `playerStates[pid] = v`: replaces the first
binding of `pid`, or appends one. -/
def setPS (l : List (String × PlayerState)) (pid : String) (v : PlayerState) :
    List (String × PlayerState) :=
  match l with
  | [] => [(pid, v)]
  | (k, x) :: rest =>
      if k = pid then (pid, v) :: rest else (k, x) :: setPS rest pid v

/-- Association-list delete, `delete playerStates[pid]`: removes the first
binding of `pid`. -/
def removePS (l : List (String × PlayerState)) (pid : String) :
    List (String × PlayerState) :=
  match l with
  | [] => []
  | (k, x) :: rest =>
      if k = pid then rest else (k, x) :: removePS rest pid

/-- The JS test `s.startsWith(pre)`, computed on the character lists so
that concrete runs reduce inside the kernel. -/
def strStartsWith (s pre : String) : Bool :=
  pre.data.isPrefixOf s.data

/-- The payload of a `playerAttack` message. -/
structure AttackData where
  targetType : String
  targetId : String
  hit : Bool
  damage : Int
  deriving DecidableEq, Repr

/-- The combat part of the `playerAttack` handler (after the membership
guard and the `playerAttacked` relay): resolve the target in the current
room by id *prefix*, apply unclamped damage, advance the room when the boss
falls. -/
def applyAttack (st : GameState) (attacker : String) (a : AttackData) :
    GameState × List Event :=
  if a.targetType = "enemy" ∧ a.hit = true then
    let room := st.rooms.getD st.currentRoom emptyRoom
    if strStartsWith a.targetId "boss" ∧ room.boss.isSome then
      match room.boss with
      | some b =>
          let b' := { b with health := b.health - a.damage }
          let roomHit := { room with boss := some b' }
          if b'.health ≤ 0 then
            let newRoom := generateRoom (st.currentRoom + 1)
            ({ st with
                rooms := (st.rooms.set st.currentRoom roomHit) ++ [newRoom],
                currentRoom := st.currentRoom + 1 },
             [Event.roomCompleted (some b') newRoom])
          else
            ({ st with rooms := st.rooms.set st.currentRoom roomHit },
             [Event.bossHealthUpdate b'])
      | none => (st, [])
    else if strStartsWith a.targetId "enemy" then
      match room.enemies.findIdx? (fun e => e.id = a.targetId) with
      | some i =>
          let enemy := room.enemies.getD i ⟨"", 0⟩
          let e' := { enemy with health := enemy.health - a.damage }
          if e'.health ≤ 0 then
            let enemies' := room.enemies.eraseIdx i
            let room' := { room with enemies := enemies' }
            let states' := st.playerStates.map fun p =>
              if p.1 = attacker then (p.1, { p.2 with kills := p.2.kills + 1 })
              else p
            let st' := { st with
                rooms := st.rooms.set st.currentRoom room',
                playerStates := states' }
            let evs := [Event.enemyDefeated enemy.id attacker]
            if enemies' = [] ∧ room'.boss = none then
              let newRoom := generateRoom (st'.currentRoom + 1)
              ({ st' with
                  rooms := st'.rooms ++ [newRoom],
                  currentRoom := st'.currentRoom + 1 },
               evs ++ [Event.roomCompleted none newRoom])
            else (st', evs)
          else
            let room' := { room with enemies := room.enemies.set i e' }
            ({ st with rooms := st.rooms.set st.currentRoom room' },
             [Event.enemyHealthUpdate e'.id e'.health])
      | none => (st, [])
    else (st, [])
  else (st, [])

/-- The `playerDamaged` handler body (after the membership guard): clamp
the caller's health at 0 with `Math.max`, emit the health update, and on
death check whether every recorded player is dead and, if so, emit
`gameOver` with the current room index. -/
def applyDamaged (st : GameState) (pid : String) (amount : Int) :
    GameState × List Event :=
  match lookupPS st.playerStates pid with
  | none => (st, [])
  | some ps =>
      let h := max 0 (ps.health - amount)
      let states' := setPS st.playerStates pid ({ ps with health := h })
      let st' := { st with playerStates := states' }
      if h ≤ 0 then
        if states'.all (fun e => decide (e.2.health ≤ 0)) then
          (st', [Event.playerHealthUpdate pid h, Event.playerDied pid,
                 Event.gameOver st.currentRoom states'])
        else
          (st', [Event.playerHealthUpdate pid h, Event.playerDied pid])
      else
        (st', [Event.playerHealthUpdate pid h])

/-- The `collectLoot` handler body (after the membership guard): find the
loot by exact id in the current room, remove it, apply its effect to the
caller's record. -/
def applyCollect (st : GameState) (pid : String) (lootId : String) :
    GameState × List Event :=
  let room := st.rooms.getD st.currentRoom emptyRoom
  match room.loot.findIdx? (fun l => l.id = lootId) with
  | some i =>
      let loot := room.loot.getD i ⟨"", "", 0⟩
      let room' := { room with loot := room.loot.eraseIdx i }
      let st1 := { st with rooms := st.rooms.set st.currentRoom room' }
      match lookupPS st1.playerStates pid with
      | none => (st1, [Event.lootCollected lootId pid])
      | some ps =>
          if loot.type = "health" then
            let h := min ps.maxHealth (ps.health + loot.value)
            let states' := setPS st1.playerStates pid ({ ps with health := h })
            ({ st1 with playerStates := states' },
             [Event.playerHealthUpdate pid h, Event.lootCollected lootId pid])
          else if loot.type = "maxHealth" then
            let ps' : PlayerState :=
              { ps with maxHealth := ps.maxHealth + loot.value,
                        health := ps.health + loot.value }
            let states' := setPS st1.playerStates pid ps'
            ({ st1 with playerStates := states' },
             [Event.playerStatsUpdate pid, Event.lootCollected lootId pid])
          else (st1, [Event.lootCollected lootId pid])
  | none => (st, [])

/-- The party record created by the `hostParty` handler: the caller is host
and sole member, the room list starts with `generateRoom 0`, and the
caller's player record is initialised. -/
def hostParty (hid : String) : Party :=
  { host := hid, players := [hid],
    state := { currentRoom := 0, rooms := [generateRoom 0],
               playerStates := [(hid, initPlayerState)] } }

/-- The `joinParty` handler on an existing party: reject when 4 members are
already present, otherwise append the joiner (no duplicate check) and
create its player record. -/
def joinParty (p : Party) (pid : String) : Party × List Event :=
  if p.players.length ≥ 4 then
    (p, [Event.joinError "Party is full"])
  else
    let players' := p.players ++ [pid]
    let states' := setPS p.state.playerStates pid initPlayerState
    ({ p with players := players',
              state := { p.state with playerStates := states' } },
     [Event.joinSuccess players', Event.playerJoined pid])

/-- The `startGame` handler on an existing party: broadcast the state when
the caller is the host, otherwise do nothing.  No flag is recorded. -/
def startGame (p : Party) (pid : String) : Party × List Event :=
  if p.host = pid then (p, [Event.gameStarted]) else (p, [])

/-- The `playerInput` handler on an existing party: relay to the other
members when the caller is a member. -/
def playerInput (p : Party) (pid : String) : Party × List Event :=
  if p.players.contains pid then (p, [Event.inputUpdate pid]) else (p, [])

/-- The `playerAttack` handler on an existing party: membership guard, the
unconditional `playerAttacked` relay, then target resolution. -/
def playerAttack (p : Party) (pid : String) (a : AttackData) :
    Party × List Event :=
  if p.players.contains pid then
    let r := applyAttack p.state pid a
    ({ p with state := r.1 }, Event.playerAttacked pid :: r.2)
  else (p, [])

/-- The `playerDamaged` handler on an existing party: membership guard,
then clamped self-damage and the wipe check. -/
def playerDamaged (p : Party) (pid : String) (amount : Int) :
    Party × List Event :=
  if p.players.contains pid then
    let r := applyDamaged p.state pid amount
    ({ p with state := r.1 }, r.2)
  else (p, [])

/-- The `collectLoot` handler on an existing party: membership guard, then
loot resolution. -/
def collectLoot (p : Party) (pid : String) (lootId : String) :
    Party × List Event :=
  if p.players.contains pid then
    let r := applyCollect p.state pid lootId
    ({ p with state := r.1 }, r.2)
  else (p, [])

/-- The per-party body of the `disconnect` handler, reached when
`players.indexOf(pid) !== -1`: remove the first occurrence of `pid`, then
either migrate the host to the front of the remaining join-ordered list,
or delete the party (`none`) when nobody remains; finally drop the
player's record. -/
def removeFromParty (p : Party) (pid : String) : Option Party × List Event :=
  let players' := p.players.erase pid
  if p.host = pid then
    match players' with
    | [] => (none, [Event.playerLeft pid])
    | newHost :: _ =>
        let states' := removePS p.state.playerStates pid
        (some { p with host := newHost, players := players',
                       state := { p.state with playerStates := states' } },
         [Event.playerLeft pid, Event.newHost newHost])
  else
    if players'.isEmpty then (none, [Event.playerLeft pid])
    else
      let states' := removePS p.state.playerStates pid
      (some { p with players := players',
                     state := { p.state with playerStates := states' } },
       [Event.playerLeft pid])

/-- The process-wide `parties` object: an insertion-ordered map from party
code to party record. -/
abbrev Registry := List (String × Party)

/-- Registry read, `parties[partyCode]`. -/
def lookupParty (reg : Registry) (code : String) : Option Party :=
  match reg with
  | [] => none
  | (c, p) :: rest => if c = code then some p else lookupParty rest code

/-- Write back a mutated party under its code (the key is known to be
present; a missing key leaves the registry unchanged). -/
def setParty (reg : Registry) (code : String) (p : Party) : Registry :=
  match reg with
  | [] => []
  | (c, q) :: rest =>
      if c = code then (c, p) :: rest else (c, q) :: setParty rest code p

/-- Registry-level `playerAttack` dispatch: `parties[partyCode] &&` guard,
then the party-level handler. -/
def handleAttack (reg : Registry) (code pid : String) (a : AttackData) :
    Registry × List Event :=
  match lookupParty reg code with
  | some party =>
      let r := playerAttack party pid a
      (setParty reg code r.1, r.2)
  | none => (reg, [])

/-- Registry-level `playerDamaged` dispatch. -/
def handleDamaged (reg : Registry) (code pid : String) (amount : Int) :
    Registry × List Event :=
  match lookupParty reg code with
  | some party =>
      let r := playerDamaged party pid amount
      (setParty reg code r.1, r.2)
  | none => (reg, [])

/-- The `disconnect` handler: walk the registry in insertion order, mutate
or delete the first party containing the leaver, and stop (`break`).
Parties before the match are untouched because they fail the membership
test; parties after the match are untouched because of the `break`. -/
def disconnectReg (reg : Registry) (pid : String) : Registry × List Event :=
  match reg with
  | [] => ([], [])
  | (c, p) :: rest =>
      if p.players.contains pid then
        match removeFromParty p pid with
        | (some p', evs) => ((c, p') :: rest, evs)
        | (none, evs) => (rest, evs)
      else
        let r := disconnectReg rest pid
        ((c, p) :: r.1, r.2)

/-- The intents a connected member can send to a single party. -/
inductive Intent where
  | join (pid : String)
  | start (pid : String)
  | input (pid : String)
  | attack (pid : String) (a : AttackData)
  | damaged (pid : String) (amount : Int)
  | collect (pid : String) (lootId : String)
  deriving DecidableEq, Repr

/-- Dispatch of one intent against one party. -/
def stepParty (p : Party) : Intent → Party × List Event
  | .join pid => joinParty p pid
  | .start pid => startGame p pid
  | .input pid => playerInput p pid
  | .attack pid a => playerAttack p pid a
  | .damaged pid amount => playerDamaged p pid amount
  | .collect pid lootId => collectLoot p pid lootId

/-- The party states reachable from a `hostParty` creation through intents
and departures (the departure case mirrors the `disconnect` handler, which
fires only when the leaver is a member). -/
inductive Reachable : Party → Prop
  | init (hid : String) : Reachable (hostParty hid)
  | step {p : Party} (i : Intent) : Reachable p → Reachable (stepParty p i).1
  | leave {p p' : Party} (pid : String) : Reachable p → pid ∈ p.players →
      (removeFromParty p pid).1 = some p' → Reachable p'

/-- The state invariant carried by every reachable party: the current room
index points at the last generated room (hence is in bounds), recorded
player healths are non-negative, rooms carry no loot, the player-record
keys are distinct, and the host is a member. -/
def Inv (p : Party) : Prop :=
  p.state.currentRoom + 1 = p.state.rooms.length ∧
  (∀ e ∈ p.state.playerStates, 0 ≤ e.2.health) ∧
  (∀ r ∈ p.state.rooms, r.loot = []) ∧
  (p.state.playerStates.map Prod.fst).Nodup ∧
  p.host ∈ p.players

/-! ## Association-list and list helper lemmas -/

theorem mem_setPS {l : List (String × PlayerState)} {k : String}
    {v : PlayerState} :
    ∀ e ∈ setPS l k v, e = (k, v) ∨ e ∈ l := by
  induction l with
  | nil => simp [setPS]
  | cons hd tl ih =>
      obtain ⟨a, b⟩ := hd
      intro e he
      rw [setPS] at he
      by_cases hk : a = k
      · rw [if_pos hk] at he
        rcases List.mem_cons.mp he with h | h
        · exact Or.inl h
        · exact Or.inr (List.mem_cons_of_mem _ h)
      · rw [if_neg hk] at he
        rcases List.mem_cons.mp he with h | h
        · exact Or.inr (h ▸ List.mem_cons_self _ _)
        · rcases ih e h with h' | h'
          · exact Or.inl h'
          · exact Or.inr (List.mem_cons_of_mem _ h')

theorem keys_setPS (l : List (String × PlayerState)) (k : String)
    (v : PlayerState) :
    (setPS l k v).map Prod.fst =
      (if k ∈ l.map Prod.fst then l.map Prod.fst
       else l.map Prod.fst ++ [k]) := by
  induction l with
  | nil => simp [setPS]
  | cons hd tl ih =>
      obtain ⟨a, b⟩ := hd
      rw [setPS]
      by_cases hk : a = k
      · simp [hk]
      · have hne : ¬k = a := fun h => hk h.symm
        simp only [if_neg hk, List.map_cons, ih]
        by_cases hm : k ∈ tl.map Prod.fst <;>
          simp [List.mem_cons, hne, hm]

theorem nodup_keys_setPS {l : List (String × PlayerState)} {k : String}
    {v : PlayerState} (h : (l.map Prod.fst).Nodup) :
    ((setPS l k v).map Prod.fst).Nodup := by
  rw [keys_setPS]
  by_cases hk : k ∈ l.map Prod.fst
  · simpa [hk] using h
  · rw [if_neg hk, List.nodup_append]
    refine ⟨h, List.nodup_singleton _, ?_⟩
    intro a ha hb
    rw [List.mem_singleton] at hb
    exact hk (hb ▸ ha)

theorem removePS_sublist (l : List (String × PlayerState)) (k : String) :
    (removePS l k).Sublist l := by
  induction l with
  | nil => simp [removePS]
  | cons hd tl ih =>
      rw [removePS]
      split
      · exact List.sublist_cons_self _ _
      · exact ih.cons₂ _

theorem mem_removePS {l : List (String × PlayerState)} {k : String} :
    ∀ e ∈ removePS l k, e ∈ l :=
  fun _ he => (removePS_sublist l k).mem he

theorem nodup_keys_removePS {l : List (String × PlayerState)} {k : String}
    (h : (l.map Prod.fst).Nodup) :
    ((removePS l k).map Prod.fst).Nodup :=
  (((removePS_sublist l k).map Prod.fst).nodup h)

theorem lookupPS_mem {l : List (String × PlayerState)} {k : String}
    {v : PlayerState} (h : lookupPS l k = some v) : (k, v) ∈ l := by
  induction l with
  | nil => simp [lookupPS] at h
  | cons hd tl ih =>
      obtain ⟨a, b⟩ := hd
      rw [lookupPS] at h
      by_cases hk : a = k
      · rw [if_pos hk] at h
        obtain rfl : b = v := by simpa using h
        exact hk ▸ List.mem_cons_self _ _
      · rw [if_neg hk] at h
        exact List.mem_cons_of_mem _ (ih h)

theorem lookupPS_isSome_of_mem_keys {l : List (String × PlayerState)}
    {k : String} (h : k ∈ l.map Prod.fst) : (lookupPS l k).isSome := by
  induction l with
  | nil => simp at h
  | cons hd tl ih =>
      obtain ⟨a, b⟩ := hd
      rw [lookupPS]
      by_cases hk : a = k
      · simp [hk]
      · rw [if_neg hk]
        rcases List.mem_cons.mp h with h | h
        · exact absurd h.symm hk
        · exact ih (by simpa using h)

theorem mem_keys_of_lookupPS_isSome {l : List (String × PlayerState)}
    {k : String} (h : (lookupPS l k).isSome) : k ∈ l.map Prod.fst := by
  induction l with
  | nil => simp [lookupPS] at h
  | cons hd tl ih =>
      obtain ⟨a, b⟩ := hd
      rw [lookupPS] at h
      by_cases hk : a = k
      · simp [hk]
      · rw [if_neg hk] at h
        simpa using Or.inr (ih h)

theorem lookupPS_of_mem_nodup {l : List (String × PlayerState)} {k : String}
    {v : PlayerState} (hn : (l.map Prod.fst).Nodup) (h : (k, v) ∈ l) :
    lookupPS l k = some v := by
  induction l with
  | nil => simp at h
  | cons hd tl ih =>
      obtain ⟨a, b⟩ := hd
      rw [lookupPS]
      rcases List.mem_cons.mp h with h | h
      · injection h with h1 h2
        subst h1
        subst h2
        simp
      · have hk : a ≠ k := by
          rintro rfl
          exact (List.nodup_cons.mp hn).1 (List.mem_map.mpr ⟨(a, v), h, rfl⟩)
        rw [if_neg hk]
        exact ih (List.nodup_cons.mp hn).2 h

theorem getD_append_length (l : List Room) (x d : Room) :
    (l ++ [x]).getD l.length d = x := by
  induction l with
  | nil => rfl
  | cons hd tl ih => simp only [List.cons_append, List.length_cons, List.getD_cons_succ]; exact ih

theorem getD_set_append (l : List Room) (i : Nat) (x new d : Room)
    (h : i + 1 = l.length) :
    ((l.set i x) ++ [new]).getD (i + 1) d = new := by
  have hl : (l.set i x).length = i + 1 := by rw [List.length_set]; omega
  rw [← hl]
  exact getD_append_length _ _ _

theorem getD_append_left (l l' : List Room) (i : Nat) (d : Room)
    (h : i < l.length) : (l ++ l').getD i d = l.getD i d := by
  induction l generalizing i with
  | nil => simp at h
  | cons hd tl ih =>
      cases i with
      | zero => rfl
      | succ n => simpa using ih n (by simpa using h)

theorem getD_set_self (l : List Room) (i : Nat) (x d : Room)
    (h : i < l.length) : (l.set i x).getD i d = x := by
  induction l generalizing i with
  | nil => simp at h
  | cons hd tl ih =>
      cases i with
      | zero => rfl
      | succ n => simpa using ih n (by simpa using h)

theorem getD_mem_or_eq (l : List Room) (i : Nat) (d : Room) :
    l.getD i d ∈ l ∨ l.getD i d = d := by
  by_cases h : i < l.length
  · left
    rw [List.getD_eq_getElem l d h]
    exact List.getElem_mem h
  · right
    rw [List.getD_eq_default]
    omega

theorem loot_getD {l : List Room} (i : Nat)
    (h : ∀ r ∈ l, r.loot = []) : (l.getD i emptyRoom).loot = [] := by
  rcases getD_mem_or_eq l i emptyRoom with hm | hm
  · exact h _ hm
  · rw [hm]; rfl

theorem loot_set {l : List Room} {i : Nat} {x : Room}
    (h : ∀ r ∈ l, r.loot = []) (hx : x.loot = []) :
    ∀ r ∈ l.set i x, r.loot = [] := by
  intro r hr
  rcases List.mem_or_eq_of_mem_set hr with hm | hm
  · exact h _ hm
  · exact hm ▸ hx

theorem map_fst_killBump (l : List (String × PlayerState)) (att : String) :
    ((l.map fun p =>
        if p.1 = att then (p.1, { p.2 with kills := p.2.kills + 1 })
        else p).map Prod.fst) = l.map Prod.fst := by
  rw [List.map_map]
  refine List.map_congr_left fun p _ => ?_
  by_cases h : p.1 = att <;> simp [h]

theorem health_killBump {l : List (String × PlayerState)} {att : String} :
    ∀ e ∈ (l.map fun p =>
        if p.1 = att then (p.1, { p.2 with kills := p.2.kills + 1 })
        else p),
      ∃ e' ∈ l, e.1 = e'.1 ∧ e.2.health = e'.2.health := by
  intro e he
  obtain ⟨p, hp, rfl⟩ := List.mem_map.mp he
  by_cases h : p.1 = att <;> exact ⟨p, hp, by simp [h]⟩

theorem lookupPS_setPS_self (l : List (String × PlayerState)) (k : String)
    (v : PlayerState) : lookupPS (setPS l k v) k = some v := by
  induction l with
  | nil => simp [setPS, lookupPS]
  | cons hd tl ih =>
      obtain ⟨a, b⟩ := hd
      rw [setPS]
      by_cases h : a = k
      · rw [if_pos h]; simp [lookupPS]
      · rw [if_neg h, lookupPS, if_neg h]; exact ih

theorem keys_setParty (reg : Registry) (code : String) (p : Party) :
    (setParty reg code p).map Prod.fst = reg.map Prod.fst := by
  induction reg with
  | nil => rfl
  | cons hd tl ih =>
      obtain ⟨c, q⟩ := hd
      rw [setParty]
      by_cases h : c = code
      · rw [if_pos h]; simp
      · rw [if_neg h]; simp [ih]

theorem removeFromParty_state {p p' : Party} {pid : String}
    (hres : (removeFromParty p pid).1 = some p') :
    p'.state.currentRoom = p.state.currentRoom ∧
    p'.state.rooms = p.state.rooms ∧
    p'.players = p.players.erase pid := by
  rw [removeFromParty] at hres
  split at hres
  · split at hres
    · cases hres
    · dsimp only at hres
      injection hres with hres
      subst hres
      exact ⟨rfl, rfl, rfl⟩
  · split at hres
    · cases hres
    · dsimp only at hres
      injection hres with hres
      subst hres
      exact ⟨rfl, rfl, rfl⟩

/-! ## Behaviour of `applyAttack` -/

theorem applyAttack_playerStates (st : GameState) (pid : String)
    (a : AttackData) :
    ∀ st' evs, applyAttack st pid a = (st', evs) →
      st'.playerStates.map Prod.fst = st.playerStates.map Prod.fst ∧
      (∀ e ∈ st'.playerStates,
        ∃ e' ∈ st.playerStates, e.1 = e'.1 ∧ e.2.health = e'.2.health) := by
  intro st' evs h
  simp only [applyAttack] at h
  repeat' split at h
  all_goals (injection h with hst hev; subst hst)
  all_goals
    first
      | exact ⟨rfl, fun e he => ⟨e, he, rfl, rfl⟩⟩
      | exact ⟨map_fst_killBump _ _, health_killBump⟩

theorem keys_setPS_of_lookup {l : List (String × PlayerState)} {k : String}
    {ps : PlayerState} (v : PlayerState) (heq : lookupPS l k = some ps) :
    (setPS l k v).map Prod.fst = l.map Prod.fst := by
  rw [keys_setPS]
  exact if_pos (List.mem_map.mpr ⟨(k, ps), lookupPS_mem heq, rfl⟩)

theorem applyAttack_rooms (st : GameState) (pid : String) (a : AttackData)
    (hlen : st.currentRoom + 1 = st.rooms.length)
    (hloot : ∀ r ∈ st.rooms, r.loot = []) :
    ∀ st' evs, applyAttack st pid a = (st', evs) →
      st'.currentRoom + 1 = st'.rooms.length ∧
      (∀ r ∈ st'.rooms, r.loot = []) := by
  intro st' evs h
  simp only [applyAttack] at h
  repeat' split at h
  all_goals (injection h with hst hev; subst hst)
  all_goals refine ⟨?_, ?_⟩
  all_goals
    first
      | exact hlen
      | exact hloot
      | (simp only [List.length_append, List.length_set, List.length_cons,
           List.length_nil]
         omega)
      | (intro r hr
         rcases List.mem_append.mp hr with hm | hm
         · refine loot_set hloot ?_ r hm
           exact loot_getD _ hloot
         · rw [List.mem_singleton.mp hm]; rfl)
      | (intro r hr
         refine loot_set hloot ?_ r hr
         exact loot_getD _ hloot)

theorem applyAttack_advance (st : GameState) (pid : String) (a : AttackData)
    (hlen : st.currentRoom + 1 = st.rooms.length) :
    ∀ st' evs, applyAttack st pid a = (st', evs) →
      (st'.currentRoom = st.currentRoom ∨
       st'.currentRoom = st.currentRoom + 1) ∧
      ((evs.any Event.isRoomCompleted = true) ↔
        st'.currentRoom = st.currentRoom + 1) ∧
      (st'.currentRoom = st.currentRoom + 1 →
        st'.rooms.length = st.rooms.length + 1 ∧
        st'.rooms.getD st'.currentRoom emptyRoom =
          generateRoom st'.currentRoom) := by
  intro st' evs h
  simp only [applyAttack] at h
  repeat' split at h
  all_goals (injection h with hst hev; subst hst; subst hev)
  all_goals try dsimp only
  all_goals refine ⟨?_, ?_, ?_⟩
  all_goals
    first
      | exact Or.inl rfl
      | exact Or.inr rfl
      | (simp [Event.isRoomCompleted]; done)
      | (intro hadv
         refine ⟨?_, getD_set_append _ _ _ _ _ hlen⟩
         simp only [List.length_append, List.length_set, List.length_cons,
           List.length_nil]
         try omega)

/-! ## Behaviour of `applyDamaged` and `applyCollect` -/

theorem applyDamaged_state (st : GameState) (pid : String) (amount : Int) :
    ∀ st' evs, applyDamaged st pid amount = (st', evs) →
      st'.rooms = st.rooms ∧ st'.currentRoom = st.currentRoom ∧
      st'.playerStates.map Prod.fst = st.playerStates.map Prod.fst ∧
      (∀ e ∈ st'.playerStates, e ∈ st.playerStates ∨ 0 ≤ e.2.health) ∧
      evs.any Event.isRoomCompleted = false := by
  intro st' evs h
  simp only [applyDamaged] at h
  repeat' split at h
  all_goals (injection h with hst hev; subst hst; subst hev)
  all_goals refine ⟨rfl, rfl, ?_, ?_, by rfl⟩
  all_goals
    first
      | exact rfl
      | exact fun e he => Or.inl he
      | exact keys_setPS_of_lookup _ (by assumption)
      | (intro e he
         rcases mem_setPS e he with rfl | hm
         · exact Or.inr (le_max_left 0 _)
         · exact Or.inl hm)

theorem applyCollect_of_no_loot (st : GameState) (pid lootId : String)
    (hloot : ∀ r ∈ st.rooms, r.loot = []) :
    applyCollect st pid lootId = (st, []) := by
  have hl := loot_getD (l := st.rooms) st.currentRoom hloot
  rw [List.getD_eq_getElem?_getD] at hl
  simp [applyCollect, hl]

/-! ## Invariant preservation -/

theorem inv_hostParty (hid : String) : Inv (hostParty hid) := by
  refine ⟨rfl, ?_, ?_, ?_, ?_⟩ <;>
    simp [hostParty, generateRoom, initPlayerState]

theorem inv_step {p : Party} (i : Intent) (h : Inv p) :
    Inv (stepParty p i).1 := by
  obtain ⟨h1, h2, h3, h4, h5⟩ := h
  cases i with
  | join pid =>
      rw [stepParty, joinParty]
      split
      · exact ⟨h1, h2, h3, h4, h5⟩
      · refine ⟨h1, ?_, h3, nodup_keys_setPS h4, List.mem_append_left _ h5⟩
        intro e he
        rcases mem_setPS e he with rfl | hm
        · norm_num [initPlayerState]
        · exact h2 e hm
  | start pid =>
      rw [stepParty, startGame]
      split <;> exact ⟨h1, h2, h3, h4, h5⟩
  | input pid =>
      rw [stepParty, playerInput]
      split <;> exact ⟨h1, h2, h3, h4, h5⟩
  | attack pid a =>
      rw [stepParty, playerAttack]
      split
      · rcases hr : applyAttack p.state pid a with ⟨st', evs⟩
        obtain ⟨hlen', hloot'⟩ := applyAttack_rooms _ _ _ h1 h3 _ _ hr
        obtain ⟨hkeys, hhp⟩ := applyAttack_playerStates _ _ _ _ _ hr
        refine ⟨hlen', ?_, hloot', hkeys ▸ h4, h5⟩
        intro e he
        obtain ⟨e', he', _, hh⟩ := hhp e he
        exact hh ▸ h2 e' he'
      · exact ⟨h1, h2, h3, h4, h5⟩
  | damaged pid amount =>
      rw [stepParty, playerDamaged]
      split
      · rcases hr : applyDamaged p.state pid amount with ⟨st', evs⟩
        obtain ⟨hrooms, hcur, hkeys, hhp, -⟩ := applyDamaged_state _ _ _ _ _ hr
        refine ⟨?_, ?_, ?_, hkeys ▸ h4, h5⟩
        · rw [hcur, hrooms]; exact h1
        · intro e he
          rcases hhp e he with hm | hpos
          · exact h2 e hm
          · exact hpos
        · rw [hrooms]; exact h3
      · exact ⟨h1, h2, h3, h4, h5⟩
  | collect pid lootId =>
      rw [stepParty, collectLoot]
      split
      · rw [applyCollect_of_no_loot _ _ _ h3]
        exact ⟨h1, h2, h3, h4, h5⟩
      · exact ⟨h1, h2, h3, h4, h5⟩

theorem inv_leave {p p' : Party} (pid : String) (h : Inv p)
    (hres : (removeFromParty p pid).1 = some p') : Inv p' := by
  obtain ⟨h1, h2, h3, h4, h5⟩ := h
  rw [removeFromParty] at hres
  split at hres
  · rename_i hhost
    split at hres
    · cases hres
    · rename_i newHost rest hplayers
      dsimp only at hres
      injection hres with hres
      subst hres
      refine ⟨h1, ?_, h3, nodup_keys_removePS h4, ?_⟩
      · exact fun e he => h2 e (mem_removePS e he)
      · rw [hplayers]; exact List.mem_cons_self _ _
  · rename_i hhost
    split at hres
    · cases hres
    · rename_i hne
      dsimp only at hres
      injection hres with hres
      subst hres
      refine ⟨h1, ?_, h3, nodup_keys_removePS h4, ?_⟩
      · exact fun e he => h2 e (mem_removePS e he)
      · exact (List.mem_erase_of_ne hhost).mpr h5

theorem inv_reachable {p : Party} (h : Reachable p) : Inv p := by
  induction h with
  | init hid => exact inv_hostParty hid
  | step i _ ih => exact inv_step i ih
  | leave pid _ _ hres ih => exact inv_leave pid ih hres

/-! ## Room-index progression -/

theorem c2_frame {p q : Party} {evs : List Event}
    (hq : q.state.currentRoom = p.state.currentRoom)
    (hev : evs.any Event.isRoomCompleted = false) :
    p.state.currentRoom ≤ q.state.currentRoom ∧
    (q.state.currentRoom = p.state.currentRoom ∨
     q.state.currentRoom = p.state.currentRoom + 1) ∧
    ((evs.any Event.isRoomCompleted = true) ↔
      q.state.currentRoom = p.state.currentRoom + 1) ∧
    (q.state.currentRoom = p.state.currentRoom + 1 →
      q.state.rooms.length = p.state.rooms.length + 1 ∧
      q.state.rooms.getD q.state.currentRoom emptyRoom =
        generateRoom q.state.currentRoom) := by
  refine ⟨hq ▸ le_refl _, Or.inl hq, ?_, ?_⟩
  · rw [hev]
    constructor
    · intro hc; exact absurd hc (by simp)
    · intro heq; exact absurd (hq.symm.trans heq) (by omega)
  · intro hadv; exact absurd (hq.symm.trans hadv) (by omega)

theorem stepParty_c2 (p : Party) (i : Intent) (hinv : Inv p) :
    p.state.currentRoom ≤ (stepParty p i).1.state.currentRoom ∧
    ((stepParty p i).1.state.currentRoom = p.state.currentRoom ∨
     (stepParty p i).1.state.currentRoom = p.state.currentRoom + 1) ∧
    (((stepParty p i).2.any Event.isRoomCompleted = true) ↔
      (stepParty p i).1.state.currentRoom = p.state.currentRoom + 1) ∧
    ((stepParty p i).1.state.currentRoom = p.state.currentRoom + 1 →
      (stepParty p i).1.state.rooms.length = p.state.rooms.length + 1 ∧
      (stepParty p i).1.state.rooms.getD
        (stepParty p i).1.state.currentRoom emptyRoom =
        generateRoom (stepParty p i).1.state.currentRoom) := by
  obtain ⟨h1, h2, h3, h4, h5⟩ := hinv
  cases i with
  | join pid =>
      rw [stepParty, joinParty]
      split <;> exact c2_frame rfl rfl
  | start pid =>
      rw [stepParty, startGame]
      split <;> exact c2_frame rfl rfl
  | input pid =>
      rw [stepParty, playerInput]
      split <;> exact c2_frame rfl rfl
  | collect pid lootId =>
      rw [stepParty, collectLoot]
      split
      · rw [applyCollect_of_no_loot _ _ _ h3]
        exact c2_frame rfl rfl
      · exact c2_frame rfl rfl
  | damaged pid amount =>
      rw [stepParty, playerDamaged]
      split
      · rcases hr : applyDamaged p.state pid amount with ⟨st', evs⟩
        obtain ⟨-, hcur, -, -, hev⟩ := applyDamaged_state _ _ _ _ _ hr
        exact c2_frame hcur hev
      · exact c2_frame rfl rfl
  | attack pid a =>
      rw [stepParty, playerAttack]
      split
      · rcases hr : applyAttack p.state pid a with ⟨st', evs⟩
        obtain ⟨hor, hiff, himp⟩ := applyAttack_advance _ _ _ h1 _ _ hr
        dsimp only
        refine ⟨?_, hor, ?_, himp⟩
        · rcases hor with h | h <;> omega
        · simpa [Event.isRoomCompleted] using hiff
      · exact c2_frame rfl rfl

theorem not_boss_of_enemy {s : String}
    (h : strStartsWith s "enemy" = true) :
    strStartsWith s "boss" = false := by
  rw [strStartsWith] at h ⊢
  cases hs : s.data with
  | nil => rw [hs] at h; simp [List.isPrefixOf] at h
  | cons c cs =>
      rw [hs] at h
      have he : "enemy".data = 'e' :: "nemy".data := by decide
      have hb : "boss".data = 'b' :: "oss".data := by decide
      rw [he, List.isPrefixOf] at h
      rw [hb, List.isPrefixOf]
      simp only [Bool.and_eq_true, beq_iff_eq] at h
      simp only [Bool.and_eq_false_iff]
      left
      simp [← h.1]

/-! ## Claim theorems -/

/-- C1 counterexample: a single overkill attack (damage 250 against the
level-0 boss with 200 health) leaves the boss recorded in `rooms[0]` with
health `-50`: boss health is *not* clamped at 0, and the resulting party
state is reachable. -/
theorem c1_boss_health_goes_negative :
    Reachable (stepParty (hostParty "A")
      (.attack "A" ⟨"enemy", "boss-0", true, 250⟩)).1 ∧
    (((stepParty (hostParty "A")
      (.attack "A" ⟨"enemy", "boss-0", true, 250⟩)).1.state.rooms.getD 0
        emptyRoom).boss.map Boss.health) = some (-50) ∧
    (-50 : Int) < 0 :=
  ⟨Reachable.step _ (Reachable.init "A"), by decide, by decide⟩

/-- C1 amended: only *player* health is clamped at 0 (`Math.max(0, ...)`
in the `playerDamaged` handler); in every reachable party state every
recorded player health is non-negative.  Boss and enemy health are
decremented without clamping and can go negative. -/
theorem c1_player_health_clamped {p : Party} (h : Reachable p) :
    ∀ e ∈ p.state.playerStates, 0 ≤ e.2.health :=
  (inv_reachable h).2.1

/-- Witness for C1 amended at the freshly hosted party. -/
theorem c1_player_health_clamped_witness : (0 : Int) ≤ initPlayerState.health :=
  c1_player_health_clamped (Reachable.init "A") ("A", initPlayerState)
    (by decide)

/-- C5 counterexample: after a run in which `gameOver` has been emitted
(sole member dies), a further `playerDamaged` intent still emits events —
including a second `gameOver` — and a further `playerAttack` still mutates
boss health.  Play is not halted. -/
theorem c5_combat_continues_after_game_over :
    (stepParty (hostParty "A") (.damaged "A" 100)).2.countP
      Event.isGameOver = 1 ∧
    (stepParty (stepParty (hostParty "A") (.damaged "A" 100)).1
      (.damaged "A" 5)).2.countP Event.isGameOver = 1 ∧
    (stepParty (stepParty (hostParty "A") (.damaged "A" 100)).1
      (.attack "A" ⟨"enemy", "boss-0", true, 50⟩)).1 ≠
      (stepParty (hostParty "A") (.damaged "A" 100)).1 := by
  refine ⟨by decide, by decide, by decide⟩

/-- C5 amended: the party record does remain present after game-over — the
combat handlers never delete a registry entry (their key set is preserved
verbatim) — but combat intents are still accepted and processed after
`gameOver` has fired (shown concretely by the counterexample run). -/
theorem c5_party_record_survives_combat :
    (∀ (reg : Registry) (code pid : String) (amount : Int),
      (handleDamaged reg code pid amount).1.map Prod.fst =
        reg.map Prod.fst) ∧
    (∀ (reg : Registry) (code pid : String) (a : AttackData),
      (handleAttack reg code pid a).1.map Prod.fst = reg.map Prod.fst) ∧
    (stepParty (stepParty (hostParty "A") (.damaged "A" 100)).1
      (.damaged "A" 1)).2 ≠ [] := by
  refine ⟨?_, ?_, by decide⟩
  · intro reg code pid amount
    rw [handleDamaged]
    split
    · exact keys_setParty _ _ _
    · rfl
  · intro reg code pid a
    rw [handleAttack]
    split
    · exact keys_setParty _ _ _
    · rfl

/-- C6 counterexample: a member's attack against a party whose host never
called `start-game` is processed normally (the boss loses health and
events are emitted) — there is no started flag to gate combat. -/
theorem c6_attack_processed_without_start :
    (((stepParty (hostParty "A")
      (.attack "A" ⟨"enemy", "boss-0", true, 50⟩)).1.state.rooms.getD 0
        emptyRoom).boss.map Boss.health) = some 150 ∧
    (stepParty (hostParty "A")
      (.attack "A" ⟨"enemy", "boss-0", true, 50⟩)).2 ≠ [] := by
  refine ⟨by decide, by decide⟩

/-- C6 amended: a `playerAttack` intent is silently dropped (no state
change, no event) exactly when the calling connection is not a member of
the named party or the party code is unknown; whether `start-game` was
ever called plays no role. -/
theorem c6_attack_guard :
    (∀ (p : Party) (pid : String) (a : AttackData), pid ∉ p.players →
      stepParty p (.attack pid a) = (p, [])) ∧
    (∀ (reg : Registry) (code pid : String) (a : AttackData),
      lookupParty reg code = none → handleAttack reg code pid a = (reg, [])) := by
  constructor
  · intro p pid a hmem
    rw [stepParty, playerAttack, if_neg (by simpa using hmem)]
  · intro reg code pid a hnone
    rw [handleAttack]
    split
    · rename_i party heq
      rw [hnone] at heq
      cases heq
    · rfl

/-- Witness for C6 amended: a non-member's attack leaves the party
untouched and emits nothing. -/
theorem c6_attack_guard_witness :
    stepParty (hostParty "A") (.attack "B" ⟨"enemy", "boss-0", true, 50⟩) =
      (hostParty "A", []) :=
  c6_attack_guard.1 (hostParty "A") "B" ⟨"enemy", "boss-0", true, 50⟩
    (by decide)

/-- C7 counterexample: `joinParty` performs no membership check, so the
host joining its own party produces the duplicated member list
`["A", "A"]` — and that state is reachable. -/
theorem c7_duplicate_member_reachable :
    Reachable (stepParty (hostParty "A") (.join "A")).1 ∧
    (stepParty (hostParty "A") (.join "A")).1.players = ["A", "A"] ∧
    ¬ (stepParty (hostParty "A") (.join "A")).1.players.Nodup :=
  ⟨Reachable.step _ (Reachable.init "A"), by decide, by decide⟩

/-- C7 amended: joining appends the caller unconditionally whenever the
party is below the 4-member cap (duplicates included), and a
leave/disconnect by an id that is a member of no party is a no-op on the
registry. -/
theorem c7_join_leave_behaviour :
    (∀ (p : Party) (pid : String), p.players.length < 4 →
      (stepParty p (.join pid)).1.players = p.players ++ [pid]) ∧
    (∀ (reg : Registry) (pid : String), (∀ e ∈ reg, pid ∉ e.2.players) →
      disconnectReg reg pid = (reg, [])) := by
  constructor
  · intro p pid hlen
    rw [stepParty, joinParty, if_neg (by omega)]
  · intro reg pid hall
    induction reg with
    | nil => rfl
    | cons hd tl ih =>
        obtain ⟨c, q⟩ := hd
        have hq : pid ∉ q.players := hall (c, q) (List.mem_cons_self _ _)
        have ih' := ih fun e he => hall e (List.mem_cons_of_mem _ he)
        rw [disconnectReg, if_neg (by simpa using hq)]
        simp [ih']

/-- Witness for C7 amended: joining a 1-member party appends, and removing
an absent id changes nothing. -/
theorem c7_join_leave_behaviour_witness :
    (stepParty (hostParty "A") (.join "B")).1.players = ["A"] ++ ["B"] ∧
    disconnectReg [("P", hostParty "A")] "B" = ([("P", hostParty "A")], []) :=
  ⟨c7_join_leave_behaviour.1 (hostParty "A") "B" (by decide),
   c7_join_leave_behaviour.2 [("P", hostParty "A")] "B" (by decide)⟩

/-- C9: `generateRoom` is a pure function of the index alone (trivially
deterministic in the embedding), selecting the room archetype by
`index / 3` and the boss archetype by `index / 5`, both capped at the last
table entry; every generated room holds exactly one boss, an empty
ambient-enemy list (and no loot), and both caps are eventually hit. -/
theorem c9_generateRoom_shape (n : Nat) :
    generateRoom n = generateRoom n ∧
    (generateRoom n).type =
      (roomTypes.getD (min (n / 3) (roomTypes.length - 1)) ⟨"", 0⟩).name ∧
    (∃ b : Boss, (generateRoom n).boss = some b ∧
      b.name =
        (bossTypes.getD (min (n / 5) (bossTypes.length - 1)) ⟨"", 0, 0⟩).name ∧
      b.health =
        (bossTypes.getD (min (n / 5) (bossTypes.length - 1)) ⟨"", 0, 0⟩).health ∧
      b.id = "boss-" ++ toString n) ∧
    (generateRoom n).enemies = [] ∧
    (generateRoom n).loot = [] ∧
    (12 ≤ n → (generateRoom n).type = "Throne Room") ∧
    (20 ≤ n → ((generateRoom n).boss.map Boss.name) = some "Deathlord") := by
  refine ⟨rfl, rfl, ⟨_, rfl, rfl, rfl, rfl⟩, rfl, rfl, ?_, ?_⟩
  · intro h
    have hm : min (n / 3) (roomTypes.length - 1) = 4 := by
      simp only [roomTypes, List.length_cons, List.length_nil]
      omega
    simp only [generateRoom]
    rw [hm]
    rfl
  · intro h
    have hm : min (n / 5) (bossTypes.length - 1) = 4 := by
      simp only [bossTypes, List.length_cons, List.length_nil]
      omega
    simp only [generateRoom]
    rw [hm]
    rfl

/-- Witness for C9 at index 25 (both caps active). -/
theorem c9_generateRoom_shape_witness :
    (generateRoom 25).type = "Throne Room" ∧
    ((generateRoom 25).boss.map Boss.name) = some "Deathlord" :=
  ⟨(c9_generateRoom_shape 25).2.2.2.2.2.1 (by omega),
   (c9_generateRoom_shape 25).2.2.2.2.2.2 (by omega)⟩

/-- C2: `currentRoom` starts at 0 with `rooms = [generateRoom 0]`, stays in
bounds (`currentRoom < rooms.length`) in every reachable party state, is
non-decreasing under every intent (and untouched by departures), changes
only by +1 and exactly when a `roomCompleted` event is emitted, and after
such a transition the new index points at the room that was appended
before the increment. -/
theorem c2_room_progression :
    (∀ hid, (hostParty hid).state.currentRoom = 0 ∧
      (hostParty hid).state.rooms = [generateRoom 0]) ∧
    (∀ p, Reachable p → p.state.currentRoom < p.state.rooms.length) ∧
    (∀ p i, Reachable p →
      p.state.currentRoom ≤ (stepParty p i).1.state.currentRoom ∧
      ((stepParty p i).1.state.currentRoom = p.state.currentRoom ∨
       (stepParty p i).1.state.currentRoom = p.state.currentRoom + 1) ∧
      (((stepParty p i).2.any Event.isRoomCompleted = true) ↔
        (stepParty p i).1.state.currentRoom = p.state.currentRoom + 1) ∧
      ((stepParty p i).1.state.currentRoom = p.state.currentRoom + 1 →
        (stepParty p i).1.state.rooms.length = p.state.rooms.length + 1 ∧
        (stepParty p i).1.state.rooms.getD
          (stepParty p i).1.state.currentRoom emptyRoom =
          generateRoom (stepParty p i).1.state.currentRoom)) ∧
    (∀ p p' pid, (removeFromParty p pid).1 = some p' →
      p'.state.currentRoom = p.state.currentRoom ∧
      p'.state.rooms = p.state.rooms) := by
  refine ⟨fun hid => ⟨rfl, rfl⟩, ?_, ?_, ?_⟩
  · intro p h
    have := (inv_reachable h).1
    omega
  · intro p i h
    exact stepParty_c2 p i (inv_reachable h)
  · intro p p' pid h
    exact ⟨(removeFromParty_state h).1, (removeFromParty_state h).2.1⟩

/-- Witness for C2 at the freshly hosted party and one boss kill. -/
theorem c2_room_progression_witness :
    (hostParty "A").state.currentRoom < (hostParty "A").state.rooms.length ∧
    ((stepParty (hostParty "A")
        (.attack "A" ⟨"enemy", "boss-0", true, 200⟩)).2.any
      Event.isRoomCompleted = true ↔
      (stepParty (hostParty "A")
        (.attack "A" ⟨"enemy", "boss-0", true, 200⟩)).1.state.currentRoom =
        (hostParty "A").state.currentRoom + 1) :=
  ⟨c2_room_progression.2.1 (hostParty "A") (Reachable.init "A"),
   (c2_room_progression.2.2.1 (hostParty "A")
     (.attack "A" ⟨"enemy", "boss-0", true, 200⟩)
     (Reachable.init "A")).2.2.1⟩

/-- C8: when a member departs, the host changes only if the departing
member was the host; with members remaining the new host is the front of
the join-ordered list after removal and a `newHost` event is emitted,
while with nobody remaining the party is deleted and no `newHost` event is
emitted — migration and deletion are mutually exclusive, and a non-host
departure (from a party satisfying the state invariant) never deletes the
party nor changes the host. -/
theorem c8_host_migration (p : Party) (pid : String) (hinv : Inv p)
    (hmem : pid ∈ p.players) :
    (p.host = pid →
      (∀ newHost rest, p.players.erase pid = newHost :: rest →
        ∃ p', (removeFromParty p pid).1 = some p' ∧
          p'.host = newHost ∧ p'.players = p.players.erase pid ∧
          Event.newHost newHost ∈ (removeFromParty p pid).2) ∧
      (p.players.erase pid = [] →
        (removeFromParty p pid).1 = none ∧
        ∀ q, Event.newHost q ∉ (removeFromParty p pid).2)) ∧
    (p.host ≠ pid →
      ∃ p', (removeFromParty p pid).1 = some p' ∧ p'.host = p.host ∧
        p'.players = p.players.erase pid ∧
        (∀ q, Event.newHost q ∉ (removeFromParty p pid).2)) := by
  obtain ⟨-, -, -, -, h5⟩ := hinv
  constructor
  · intro hhost
    constructor
    · intro newHost rest herase
      simp only [removeFromParty, if_pos hhost, herase]
      exact ⟨_, rfl, rfl, rfl, by simp⟩
    · intro herase
      simp only [removeFromParty, if_pos hhost, herase]
      exact ⟨trivial, fun q => by simp⟩
  · intro hne
    have hmemHost : p.host ∈ p.players.erase pid :=
      (List.mem_erase_of_ne hne).mpr h5
    have hnonempty : ¬(p.players.erase pid).isEmpty = true := by
      intro hempty
      rw [List.isEmpty_iff] at hempty
      rw [hempty] at hmemHost
      exact absurd hmemHost (List.not_mem_nil _)
    simp only [removeFromParty, if_neg hne, if_neg hnonempty]
    exact ⟨_, rfl, rfl, rfl, fun q => by simp⟩

/-- Witness for C8: in the party `{host A, members [A, B]}` the departure
of host A migrates the host to B (the earliest-joined survivor) and emits
`newHost B`. -/
theorem c8_host_migration_witness :
    ∃ p', (removeFromParty (stepParty (hostParty "A") (.join "B")).1
        "A").1 = some p' ∧
      p'.host = "B" ∧ p'.players = ["B"] ∧
      Event.newHost "B" ∈
        (removeFromParty (stepParty (hostParty "A") (.join "B")).1 "A").2 := by
  obtain ⟨p', h1, h2, h3, h4⟩ :=
    ((c8_host_migration (stepParty (hostParty "A") (.join "B")).1 "A"
      (by unfold Inv; decide) (by decide)).1 (by decide)).1 "B" [] (by decide)
  exact ⟨p', h1, h2, h3.trans (by decide), h4⟩

/-- C10: a disconnect removes the connection from at most one party: with
the registry split as `pre ++ (c, p) :: post` where no party in `pre`
contains the leaver and `p` does, only the entry `(c, p)` is mutated (or
deleted when the removal empties it); every entry of `pre` and `post` —
even entries of `post` that also contain the leaver — is left verbatim. -/
theorem c10_disconnect_touches_first_party_only (pre : Registry) (c : String)
    (p : Party) (post : Registry) (pid : String)
    (hpre : ∀ e ∈ pre, pid ∉ e.2.players) (hp : pid ∈ p.players) :
    ((removeFromParty p pid).1 = none →
      disconnectReg (pre ++ (c, p) :: post) pid =
        (pre ++ post, (removeFromParty p pid).2)) ∧
    (∀ p', (removeFromParty p pid).1 = some p' →
      disconnectReg (pre ++ (c, p) :: post) pid =
        (pre ++ (c, p') :: post, (removeFromParty p pid).2)) := by
  induction pre with
  | nil =>
      constructor
      · intro hnone
        rcases hr : removeFromParty p pid with ⟨res, evs⟩
        rw [hr] at hnone
        dsimp only at hnone
        subst hnone
        simp only [List.nil_append]
        rw [disconnectReg, if_pos (by simpa using hp), hr]
      · intro p' hsome
        rcases hr : removeFromParty p pid with ⟨res, evs⟩
        rw [hr] at hsome
        dsimp only at hsome
        subst hsome
        simp only [List.nil_append]
        rw [disconnectReg, if_pos (by simpa using hp), hr]
  | cons hd tl ih =>
      obtain ⟨c0, q0⟩ := hd
      have hq0 : pid ∉ q0.players := hpre (c0, q0) (List.mem_cons_self _ _)
      have ih' := ih fun e he => hpre e (List.mem_cons_of_mem _ he)
      constructor
      · intro hnone
        simp only [List.cons_append]
        rw [disconnectReg, if_neg (by simpa using hq0)]
        simp [ih'.1 hnone]
      · intro p' hsome
        simp only [List.cons_append]
        rw [disconnectReg, if_neg (by simpa using hq0)]
        simp [ih'.2 p' hsome]

/-- Witness for C10: the same id hosts two parties; its disconnect deletes
only the first registry entry and leaves the second — which still contains
the id — verbatim. -/
theorem c10_disconnect_touches_first_party_only_witness :
    disconnectReg [("P1", hostParty "A"), ("P2", hostParty "A")] "A" =
      ([("P2", hostParty "A")], [Event.playerLeft "A"]) := by
  have h := (c10_disconnect_touches_first_party_only [] "P1" (hostParty "A")
      [("P2", hostParty "A")] "A" (by simp) (by decide)).1 (by decide)
  exact h.trans (by decide)

/-- C3 counterexample: after the level-0 boss (`boss-0`) is killed and the
party advances to room 1 (whose boss is `boss-1`), an attack that still
names the dead id `boss-0` is *not* dropped: the id is matched only by the
prefix `boss`, so the attack damages the new current boss (200 → 150) and
emits events. -/
theorem c3_stale_boss_id_hits_new_boss :
    Reachable (stepParty (hostParty "A")
      (.attack "A" ⟨"enemy", "boss-0", true, 200⟩)).1 ∧
    (((stepParty (hostParty "A")
      (.attack "A" ⟨"enemy", "boss-0", true, 200⟩)).1.state.rooms.getD 1
        emptyRoom).boss.map Boss.id) = some "boss-1" ∧
    (((stepParty (stepParty (hostParty "A")
        (.attack "A" ⟨"enemy", "boss-0", true, 200⟩)).1
      (.attack "A" ⟨"enemy", "boss-0", true, 50⟩)).1.state.rooms.getD 1
        emptyRoom).boss.map Boss.health) = some 150 ∧
    (stepParty (stepParty (hostParty "A")
        (.attack "A" ⟨"enemy", "boss-0", true, 200⟩)).1
      (.attack "A" ⟨"enemy", "boss-0", true, 50⟩)).2 ≠ [] :=
  ⟨Reachable.step _ (Reachable.init "A"), by decide, by decide, by decide⟩

/-- C3 amended: target resolution is by id *prefix*, not id equality.  For
a member's hit with target kind `enemy`: any target id starting with
`boss` damages the current room's boss (whatever the id's suffix, so a
stale dead boss id damages the new boss); a target id starting with
`enemy` is dropped unless it matches an enemy of the current room exactly;
an id with neither prefix is dropped with no state change. -/
theorem c3_prefix_target_resolution (p : Party) (pid : String)
    (a : AttackData) (hmem : pid ∈ p.players) :
    (∀ b, a.targetType = "enemy" → a.hit = true →
      strStartsWith a.targetId "boss" = true →
      (p.state.rooms.getD p.state.currentRoom emptyRoom).boss = some b →
      (((stepParty p (.attack pid a)).1.state.rooms.getD p.state.currentRoom
          emptyRoom).boss.map Boss.health) = some (b.health - a.damage)) ∧
    (strStartsWith a.targetId "boss" = false →
      strStartsWith a.targetId "enemy" = false →
      (stepParty p (.attack pid a)).1 = p) ∧
    (strStartsWith a.targetId "enemy" = true →
      ((p.state.rooms.getD p.state.currentRoom emptyRoom).enemies.findIdx?
        (fun e => e.id = a.targetId)) = none →
      (stepParty p (.attack pid a)).1 = p) := by
  have hc : p.players.contains pid = true := by simpa using hmem
  refine ⟨?_, ?_, ?_⟩
  · intro b htt hh hpre hboss
    have hidx : p.state.currentRoom < p.state.rooms.length := by
      by_contra hge
      rw [List.getD_eq_default _ _ (Nat.le_of_not_lt hge)] at hboss
      exact Option.noConfusion hboss
    simp only [stepParty, playerAttack, if_pos hc]
    rcases hr : applyAttack p.state pid a with ⟨st', evs⟩
    simp only [applyAttack] at hr
    rw [if_pos ⟨htt, hh⟩, if_pos ⟨hpre, by rw [hboss]; rfl⟩, hboss] at hr
    dsimp only at hr
    by_cases hdeath : b.health - a.damage ≤ 0
    · rw [if_pos hdeath] at hr
      injection hr with h1 h2
      subst h1
      dsimp only
      rw [getD_append_left _ _ _ _ (by rw [List.length_set]; exact hidx)]
      rw [getD_set_self _ _ _ _ hidx]
      rfl
    · rw [if_neg hdeath] at hr
      injection hr with h1 h2
      subst h1
      dsimp only
      rw [getD_set_self _ _ _ _ hidx]
      rfl
  · intro hb he
    simp only [stepParty, playerAttack, if_pos hc]
    rcases hr : applyAttack p.state pid a with ⟨st', evs⟩
    simp only [applyAttack] at hr
    have hst : st' = p.state := by
      by_cases hcond : a.targetType = "enemy" ∧ a.hit = true
      · rw [if_pos hcond, if_neg (by simp [hb]), if_neg (by simp [he])] at hr
        injection hr with h1 h2
        exact h1.symm
      · rw [if_neg hcond] at hr
        injection hr with h1 h2
        exact h1.symm
    subst hst
    rfl
  · intro he hfind
    have hb := not_boss_of_enemy he
    simp only [stepParty, playerAttack, if_pos hc]
    rcases hr : applyAttack p.state pid a with ⟨st', evs⟩
    simp only [applyAttack] at hr
    have hst : st' = p.state := by
      by_cases hcond : a.targetType = "enemy" ∧ a.hit = true
      · rw [if_pos hcond, if_neg (by simp [hb]), if_pos he, hfind] at hr
        injection hr with h1 h2
        exact h1.symm
      · rw [if_neg hcond] at hr
        injection hr with h1 h2
        exact h1.symm
    subst hst
    rfl

/-- Witness for C3 amended: in a fresh party an attack naming `bossXYZ`
(an id matching nothing, but carrying the `boss` prefix) still damages the
current boss, and an attack naming `enemy-1` (no such enemy) is dropped. -/
theorem c3_prefix_target_resolution_witness :
    (((stepParty (hostParty "A")
      (.attack "A" ⟨"enemy", "bossXYZ", true, 50⟩)).1.state.rooms.getD 0
        emptyRoom).boss.map Boss.health) = some (200 - 50) ∧
    (stepParty (hostParty "A")
      (.attack "A" ⟨"enemy", "enemy-1", true, 50⟩)).1 = hostParty "A" :=
  ⟨(c3_prefix_target_resolution (hostParty "A") "A"
        ⟨"enemy", "bossXYZ", true, 50⟩ (by decide)).1
      { name := "Reanimated Executioner", health := 200, damage := 20,
        id := "boss-0", type := 0, position := ⟨0, 1, 0⟩ }
      rfl rfl (by decide) (by decide),
   (c3_prefix_target_resolution (hostParty "A") "A"
        ⟨"enemy", "enemy-1", true, 50⟩ (by decide)).2.2 (by decide)
      (by decide)⟩

/-- C4: when a member's `playerDamaged` intent is processed against a
reachable party whose member list and player records are in sync, a
`gameOver` event (carrying `roomsCleared` equal to the current room index)
is emitted *iff* afterwards every current member's recorded health is
exactly 0; and in the concrete two-member run where both members die from
sequential intents, the first intent emits no `gameOver` and the second
emits exactly one, carrying `roomsCleared = 0` (the index reached) and the
full statistics snapshot. -/
theorem c4_game_over_exactly_on_wipe :
    (∀ (p : Party) (pid : String) (amount : Int),
      Reachable p → pid ∈ p.players →
      (∀ q, q ∈ p.players ↔ (lookupPS p.state.playerStates q).isSome) →
      ((∃ stats, Event.gameOver p.state.currentRoom stats ∈
          (stepParty p (.damaged pid amount)).2) ↔
        (∀ q ∈ (stepParty p (.damaged pid amount)).1.players, ∀ ps,
          lookupPS (stepParty p (.damaged pid amount)).1.state.playerStates q
            = some ps → ps.health = 0))) ∧
    ((stepParty (stepParty (hostParty "A") (.join "B")).1
        (.damaged "A" 100)).2.countP Event.isGameOver = 0 ∧
     (stepParty (stepParty (stepParty (hostParty "A") (.join "B")).1
        (.damaged "A" 100)).1 (.damaged "B" 100)).2.countP Event.isGameOver
        = 1 ∧
     Event.gameOver 0
        [("A", ⟨0, 100, 1, 0⟩), ("B", ⟨0, 100, 1, 0⟩)] ∈
       (stepParty (stepParty (stepParty (hostParty "A") (.join "B")).1
          (.damaged "A" 100)).1 (.damaged "B" 100)).2) := by
  constructor
  · intro p pid amount hreach hmem hsync
    obtain ⟨-, h2, -, h4, -⟩ := inv_reachable hreach
    have hc : p.players.contains pid = true := by simpa using hmem
    obtain ⟨ps, hps⟩ : ∃ ps, lookupPS p.state.playerStates pid = some ps :=
      Option.isSome_iff_exists.mp ((hsync pid).mp hmem)
    simp only [stepParty, playerDamaged, if_pos hc]
    rcases hr : applyDamaged p.state pid amount with ⟨st', evs⟩
    dsimp only
    simp only [applyDamaged, hps] at hr
    set v := max 0 (ps.health - amount) with hv
    set states' := setPS p.state.playerStates pid { ps with health := v }
      with hstates
    have hkeys : states'.map Prod.fst = p.state.playerStates.map Prod.fst :=
      keys_setPS_of_lookup _ hps
    by_cases hdead : v ≤ 0
    · rw [if_pos hdead] at hr
      by_cases hall : states'.all (fun e => decide (e.2.health ≤ 0)) = true
      · rw [if_pos hall] at hr
        injection hr with h1' h2'
        subst h1'
        subst h2'
        dsimp only
        constructor
        · intro _ q hq ps' hlook
          have hmem' : (q, ps') ∈ states' := lookupPS_mem hlook
          have hle : ps'.health ≤ 0 := by
            have := List.all_eq_true.mp hall (q, ps') hmem'
            simpa using this
          have hge : 0 ≤ ps'.health := by
            rcases mem_setPS _ hmem' with heq | hm
            · have hsnd : ps' = { ps with health := v } :=
                congrArg Prod.snd heq
              rw [hsnd]
              exact le_max_left 0 _
            · exact h2 _ hm
          omega
        · intro _
          exact ⟨states', by simp⟩
      · rw [if_neg hall] at hr
        injection hr with h1' h2'
        subst h1'
        subst h2'
        dsimp only
        constructor
        · rintro ⟨stats, hmem'⟩
          simp at hmem'
        · intro hall0
          exfalso
          obtain ⟨e, hmem', hlive⟩ :
              ∃ e ∈ states', ¬(decide (e.2.health ≤ 0) = true) := by
            by_contra hno
            push_neg at hno
            exact hall (List.all_eq_true.mpr hno)
          have hqmem : e.1 ∈ p.players := by
            apply (hsync e.1).mpr
            apply lookupPS_isSome_of_mem_keys
            rw [← hkeys]
            exact List.mem_map.mpr ⟨e, hmem', rfl⟩
          have hnodup' : (states'.map Prod.fst).Nodup := hkeys ▸ h4
          have hpair : (e.1, e.2) ∈ states' := by
            rw [Prod.mk.eta]
            exact hmem'
          have hlook : lookupPS states' e.1 = some e.2 :=
            lookupPS_of_mem_nodup hnodup' hpair
          have hzero := hall0 e.1 hqmem e.2 hlook
          simp at hlive
          omega
    · rw [if_neg hdead] at hr
      injection hr with h1' h2'
      subst h1'
      subst h2'
      dsimp only
      constructor
      · rintro ⟨stats, hmem'⟩
        simp at hmem'
      · intro hall0
        exfalso
        have hlook : lookupPS states' pid = some { ps with health := v } :=
          lookupPS_setPS_self _ _ _
        have hzero := hall0 pid hmem _ hlook
        simp only at hzero
        omega
  · refine ⟨by decide, by decide, by decide⟩

/-- Witness for C4 at a concrete two-member party (only one member dead, so
both sides of the equivalence are false). -/
theorem c4_game_over_exactly_on_wipe_witness :
    ((∃ stats, Event.gameOver
        (stepParty (hostParty "A") (.join "B")).1.state.currentRoom stats ∈
        (stepParty (stepParty (hostParty "A") (.join "B")).1
          (.damaged "A" 100)).2) ↔
      (∀ q ∈ (stepParty (stepParty (hostParty "A") (.join "B")).1
          (.damaged "A" 100)).1.players, ∀ ps,
        lookupPS (stepParty (stepParty (hostParty "A") (.join "B")).1
          (.damaged "A" 100)).1.state.playerStates q = some ps →
          ps.health = 0)) := by
  apply c4_game_over_exactly_on_wipe.1 (stepParty (hostParty "A")
    (.join "B")).1 "A" 100 (Reachable.step _ (Reachable.init "A"))
    (by decide)
  intro q
  show q ∈ ["A", "B"] ↔
    (lookupPS [("A", initPlayerState), ("B", initPlayerState)] q).isSome
  constructor
  · intro hq
    rcases List.mem_cons.mp hq with rfl | hq
    · decide
    · rcases List.mem_cons.mp hq with rfl | hq
      · decide
      · exact absurd hq (List.not_mem_nil _)
  · intro hs
    by_cases hA : q = "A"
    · subst hA
      decide
    · by_cases hB : q = "B"
      · subst hB
        decide
      · rw [lookupPS, if_neg fun h => hA h.symm, lookupPS,
          if_neg fun h => hB h.symm, lookupPS] at hs
        simp at hs

end Deathroom
